import Mathlib

/-!
Verification of the magic-square analysis engine (`msfull.py`).

The definitions below are a shallow embedding of the analysis script: the
literal 5×5 grid, the magic-square validation, the point-symmetry check, the
mod-256 character decoding, the transposition/stride extraction, the
palindrome scan, the primality test, the trial-division factorization, the
digital-root computation and the report header.  Components of the engine
that the specification describes but that are not present in the source
(the generalized codec with its sentinel placeholder, and the Matrix Model's
`rotateLeft90`) are modelled from the specification and marked as such.
-/

/-- The literal 5×5 grid, `self.square` in `CompleteMagicSquareAnalysis.__init__`. -/
def square : List (List Nat) :=
  [[434, 1311, 312, 278, 966],
   [204, 812, 934, 280, 1071],
   [626, 620, 809, 620, 626],
   [1071, 280, 934, 812, 204],
   [966, 278, 312, 1311, 434]]

/-- Double indexing `sq[i][j]`; out-of-range reads default (all actual reads are in range). -/
def get2 (sq : List (List Nat)) (i j : Nat) : Nat :=
  (sq.getD i []).getD j 0

/-- Row-major flattening, `[val for row in sq for val in row]`. -/
def flatten (sq : List (List Nat)) : List Nat :=
  sq.flatten

/-- The flattened grid, `self.flat` in `_analyze_structure`. -/
def flatSquare : List Nat := flatten square

/-- Python `range(start, stop, step)` for a positive step. -/
def rangeStep (start stop step : Nat) : List Nat :=
  (List.range ((stop - start + (step - 1)) / step)).map (fun k => start + k * step)

/-- Row sums, `row_sums = [sum(row) for row in self.square]` (`_validate_magic_square`). -/
def rowSums (sq : List (List Nat)) : List Nat :=
  sq.map List.sum

/-- Column sums, `col_sums = [sum(self.square[i][j] for i in range(5)) for j in range(5)]`. -/
def colSums (sq : List (List Nat)) : List Nat :=
  (List.range 5).map (fun j => ((List.range 5).map (fun i => get2 sq i j)).sum)

/-- Main diagonal sum, `diag1 = sum(self.square[i][i] for i in range(5))`. -/
def mainDiagSum (sq : List (List Nat)) : Nat :=
  ((List.range 5).map (fun i => get2 sq i i)).sum

/-- Anti-diagonal sum, `diag2 = sum(self.square[i][4-i] for i in range(5))`. -/
def antiDiagSum (sq : List (List Nat)) : Nat :=
  ((List.range 5).map (fun i => get2 sq i (4 - i))).sum

/-- All twelve sums, `all_sums = row_sums + col_sums + [diag1, diag2]`. -/
def allSums (sq : List (List Nat)) : List Nat :=
  rowSums sq ++ colSums sq ++ [mainDiagSum sq, antiDiagSum sq]

/-- The magic constant, `all_sums[0] if len(set(all_sums)) == 1 else None`
(`_validate_magic_square`). -/
def magicConstant (sq : List (List Nat)) : Option Nat :=
  if (allSums sq).dedup.length = 1 then some ((allSums sq).getD 0 0) else none

/-- The spec's `isMagicSquare()`: true iff every row sum, column sum and both
diagonal sums are equal, i.e. the condition under which `_validate_magic_square`
reports a magic constant. -/
def isMagicSquare (sq : List (List Nat)) : Bool :=
  (magicConstant sq).isSome

/-- The spec's `hasPointSymmetry()`, `all(self.square[i][j] == self.square[4-i][4-j]
for i in range(5) for j in range(5))` in `_analyze_structure`. -/
def hasPointSymmetry (sq : List (List Nat)) : Bool :=
  (List.range 5).all (fun i => (List.range 5).all (fun j =>
    get2 sq i j == get2 sq (4 - i) (4 - j)))

/-- Matrix transposition, `transposed = [[self.square[i][j] for i in range(5)]
for j in range(5)]` (`_analyze_mathematical_properties`). -/
def transposeSq (sq : List (List Nat)) : List (List Nat) :=
  (List.range 5).map (fun j => (List.range 5).map (fun i => get2 sq i j))

/-- The row-major flattening of the transposed grid, `flat_transposed`. -/
def flatTransposed : List Nat := flatten (transposeSq square)

/-- The mod-256 character mapping `chr(val % 256)` applied elementwise. -/
def decodeChars (l : List Nat) : List Char :=
  l.map (fun v => Char.ofNat (v % 256))

/-- Method 1 in `_perform_ascii_analysis`: decode the center row,
`''.join(chr(val % 256) for val in square[2])`. -/
def decodeCenterRow (sq : List (List Nat)) : String :=
  (decodeChars (sq.getD 2 [])).asString

/-- Method 2 in `_perform_ascii_analysis`: transpose, flatten, take the literal
positions `[2, 7, 12, 17, 22]` and decode them with `chr(val % 256)`. -/
def decodeTransposition (sq : List (List Nat)) : String :=
  (decodeChars (([2, 7, 12, 17, 22]).map
    (fun p => (flatten (transposeSq sq)).getD p 0))).asString

/-- The palindrome scan of `_analyze_prime_distribution`: for each length in
`[3, 5, 7]` and each window start `i`, record `(length, seq)` whenever the
window `flat[i:i+length]` equals its own reversal.  The appended tuples carry
the length and the values, not the starting index. -/
def palindromeScan (flat : List Nat) : List (Nat × List Nat) :=
  ([3, 5, 7]).flatMap (fun len =>
    (List.range (flat.length - len + 1)).filterMap (fun i =>
      let seq := (flat.drop i).take len
      if seq = seq.reverse then some (len, seq) else none))

/-- The primality test `_is_prime`: trial division over `range(2, int(sqrt(n)) + 1)`
with `n < 2` not prime.  `int(math.sqrt n)` is the exact floor square root for
every value occurring in the grid, so it is rendered as `Nat.sqrt`. -/
def is_prime (n : Nat) : Bool :=
  if n < 2 then false
  else (List.range' 2 (Nat.sqrt n - 1)).all (fun i => n % i != 0)

/-- The inner loop of `_factorize`: `while n % d == 0: factors.append(d); n //= d`.
Returns the appended factors together with the remaining value.  The guards
`2 ≤ d` and `0 < n` only ensure termination; every call made by `factorLoop`
satisfies them. -/
def divideOut (d n : Nat) : List Nat × Nat :=
  if h : 2 ≤ d ∧ 0 < n ∧ n % d = 0 then
    (d :: (divideOut d (n / d)).1, (divideOut d (n / d)).2)
  else ([], n)
termination_by n
decreasing_by exact Nat.div_lt_self h.2.1 (by omega)

/-- The remaining value never grows. -/
theorem divideOut_snd_le (d n : Nat) : (divideOut d n).2 ≤ n := by
  induction n using divideOut.induct d with
  | case1 n h ih =>
    rw [divideOut, dif_pos h]
    exact le_trans ih (Nat.div_le_self n d)
  | case2 n h =>
    rw [divideOut, dif_neg h]

/-- The outer loop of `_factorize`: `while d * d <= n: <divide out d>; d += 1`,
followed by `if n > 1: factors.append(n)`. -/
def factorLoop (d n : Nat) : List Nat :=
  if h : d * d ≤ n then
    (divideOut d n).1 ++ factorLoop (d + 1) (divideOut d n).2
  else if 1 < n then [n] else []
termination_by n + 1 - d
decreasing_by
  have hdn : d ≤ n := by
    rcases Nat.eq_zero_or_pos d with h0 | h1
    · omega
    · calc d = d * 1 := (Nat.mul_one d).symm
        _ ≤ d * d := Nat.mul_le_mul_left d h1
        _ ≤ n := h
  have := divideOut_snd_le d n
  omega

/-- Integer factorization `_factorize`: repeated trial division starting at 2. -/
def factorize (n : Nat) : List Nat :=
  factorLoop 2 n

/-- Sum of decimal digits, `sum(int(d) for d in str(dr))` in `_discover_palindromes`. -/
def digitSum (n : Nat) : Nat :=
  if n < 10 then n else n % 10 + digitSum (n / 10)
termination_by n
decreasing_by exact Nat.div_lt_self (by omega) (by omega)

/-- The digit sum is bounded by the number itself. -/
theorem digitSum_le (n : Nat) : digitSum n ≤ n := by
  induction n using digitSum.induct with
  | case1 n h =>
    rw [digitSum, if_pos h]
  | case2 n h ih =>
    rw [digitSum, if_neg h]
    have h10 := Nat.mod_add_div n 10
    have : n / 10 ≤ 10 * (n / 10) := Nat.le_mul_of_pos_left _ (by omega)
    omega

/-- For `n ≥ 10` the digit sum strictly decreases. -/
theorem digitSum_lt (n : Nat) (h : 10 ≤ n) : digitSum n < n := by
  rw [digitSum, if_neg (by omega)]
  have h10 := Nat.mod_add_div n 10
  have hle := digitSum_le (n / 10)
  have hpos : 1 ≤ n / 10 := Nat.le_div_iff_mul_le (by omega) |>.2 (by omega)
  omega

/-- The digital root, `while dr > 9: dr = sum(int(d) for d in str(dr))`
in `_discover_palindromes`. -/
def digitalRoot (n : Nat) : Nat :=
  if n ≤ 9 then n else digitalRoot (digitSum n)
termination_by n
decreasing_by exact digitSum_lt n (by omega)

/-- The writes performed by `_write_header`, in order, with the value of
`datetime.now().strftime` passed in as `today`.  The second write interpolates
the current date into the report. -/
def writeHeader (today : String) : List String :=
  ["# Liber Primus Magic Square: Complete Cryptanalytic Solution\n\n",
   "**Date:** " ++ today ++ "\n",
   "**Status:** SOLVED - PRIMARY LAYER\n",
   "**Methodology:** Multi-phase systematic analysis with self-referential discovery\n",
   "**Classification:** Strategic Cryptographic Analysis\n\n",
   "## Abstract\n\n",
   "This document presents the complete cryptanalytic solution to the Liber Primus Page 16 magic square puzzle, ",
   "a 5×5 matrix that had remained unsolved since its release. Through systematic multi-phase analysis ",
   "employing mathematical validation, pattern recognition, transposition methods, and self-referential ",
   "discovery techniques, we successfully decoded the primary layer revealing it to be a revolutionary ",
   "self-referential puzzle where the decoding instruction is embedded within the square itself.\n\n",
   "**Key Achievement:** Complete primary layer solution revealing the instruction 'rl)lr' through ",
   "multiple convergent methodologies, demonstrating 100% ASCII validity and perfect philosophical ",
   "alignment with the accompanying runic message \"DISCOVER TRUTH INSIDE YOURSELF.\"\n\n"]

/-- Modelled from the spec: the generalized Codec of §4.4 is part of the second
analysis script, which is not under `src/`; `msfull.py` only contains the
in-range branch `chr(val % 256)` and the printable-range count.  Per the spec,
the codec emits the mapped character when `v % 256` lies in `[32, 126]` and the
sentinel placeholder `.` otherwise. -/
def encodeChar (v : Nat) : Char :=
  if 32 ≤ v % 256 ∧ v % 256 ≤ 126 then Char.ofNat (v % 256) else '.'

/-- Elementwise encoding of a numeric sequence. -/
def encodeSeq (l : List Nat) : List Char :=
  l.map encodeChar

/-- The number of in-range values, `sum(1 for val in row if 32 <= (val % 256) <= 126)`
in `_analyze_mathematical_properties`. -/
def validCount (l : List Nat) : Nat :=
  l.countP (fun v => decide (32 ≤ v % 256 ∧ v % 256 ≤ 126))

/-- Modelled from the spec: the validity score of §4.4, `(count of in-range
values) / (sequence length)`, defined to be `0` for an empty sequence.  The
source computes the same ratio scaled to a percentage on nonempty rows only. -/
def validityScore (l : List Nat) : ℚ :=
  if l.length = 0 then 0 else (validCount l : ℚ) / (l.length : ℚ)

/-- An N×N matrix viewed as a function of its indices. -/
def SquareMat (n : Nat) : Type :=
  Fin n → Fin n → Int

/-- Modelled from the spec: the Matrix Model's `rotateLeft90` is not under
`src/`; the spec defines it by `rotated[N-1-j][i] = original[i][j]`, i.e. the
entry at `(r, c)` of the rotation is the entry at `(c, N-1-r)` of the original. -/
def rotateLeft90 {n : Nat} (m : SquareMat n) : SquareMat n :=
  fun r c => m c r.rev

/-- Modelled from the spec: the 180-degree rotation `(i, j) → (N-1-i, N-1-j)`,
the point-symmetry reflection of the glossary. -/
def rotate180 {n : Nat} (m : SquareMat n) : SquareMat n :=
  fun r c => m r.rev c.rev

/-- A list all of whose elements are equal is nondecreasing. -/
theorem pairwise_le_of_all_eq (l : List Nat) (d : Nat) (h : ∀ x ∈ l, x = d) :
    l.Pairwise (· ≤ ·) := by
  induction l with
  | nil => exact List.Pairwise.nil
  | cons a t ih =>
    refine List.Pairwise.cons (fun y hy => ?_) (ih (fun x hx => h x (List.mem_cons_of_mem a hx)))
    rw [h a (List.mem_cons_self a t), h y (List.mem_cons_of_mem a hy)]

/-- Evaluation of the floor square root on literals. -/
theorem sqrt_eval (n a : Nat) (h1 : a * a ≤ n) (h2 : n < (a + 1) * (a + 1)) :
    Nat.sqrt n = a :=
  (Nat.eq_sqrt.2 ⟨h1, h2⟩).symm

/-- C1: the literal grid is a magic square with magic constant 3301, has point
symmetry, and its middle row decodes under mod-256 to the characters
`r`, `l`, `)`, `l`, `r`, all five values being in the printable range, for a
validity score of 1. -/
theorem square_magic_symmetric_decodes :
    isMagicSquare square = true ∧
    magicConstant square = some 3301 ∧
    hasPointSymmetry square = true ∧
    decodeChars (square.getD 2 []) = ['r', 'l', ')', 'l', 'r'] ∧
    validCount (square.getD 2 []) = 5 ∧
    (square.getD 2 []).length = 5 ∧
    validityScore (square.getD 2 []) = 1 := by
  refine ⟨by decide, by decide, by decide, by decide, by decide, by decide, ?_⟩
  norm_num [validityScore, validCount, square]

/-- C2, counterexample: stride-extracting the flattened transpose with stride 5
from offset 2 does not yield the value sequence `[312, 812, 626, 934, 312]`
stated in the claim. -/
theorem transposed_stride_values_ne_claimed :
    (rangeStep 2 25 5).map (fun p => flatTransposed.getD p 0) ≠
      [312, 812, 626, 934, 312] := by
  decide

/-- C2, amended: stride-extracting the flattened transpose with stride 5 from
offset 2 yields the positions `[2, 7, 12, 17, 22]` and the values
`[626, 620, 809, 620, 626]` (the center row of the grid). -/
theorem transposed_stride_extraction :
    rangeStep 2 25 5 = [2, 7, 12, 17, 22] ∧
    (rangeStep 2 25 5).map (fun p => flatTransposed.getD p 0) =
      [626, 620, 809, 620, 626] := by
  decide

/-- C3: the two embedded decoding procedures agree on the literal grid, both
producing the character string `rl)lr`. -/
theorem decode_methods_agree :
    decodeCenterRow square = decodeTransposition square ∧
    decodeCenterRow square = "rl)lr" := by
  decide

/-- C4, counterexample: the report written by `analyze` begins with the header,
whose second write interpolates the current date, so two runs of the pipeline
on the identical matrix on different dates produce different bytes. -/
theorem writeHeader_differs_across_dates :
    writeHeader "October 11, 2025" ≠ writeHeader "October 12, 2025" := by
  decide

/-- Evaluation of the primality test once the floor square root is known. -/
theorem is_prime_eval (n a : Nat) (h1 : a * a ≤ n) (h2 : n < (a + 1) * (a + 1)) :
    is_prime n =
      (if n < 2 then false else (List.range' 2 (a - 1)).all (fun i => n % i != 0)) := by
  unfold is_prime
  rw [sqrt_eval n a h1 h2]

/-- The primes found among the distinct grid values are `[809]` under every
enumeration order of `set(self.flat)`. -/
theorem primes_of_distinct_values (l : List Nat) (hl : l.Perm flatSquare.dedup) :
    l.filter (fun v => is_prime v) = [809] := by
  have e809 : is_prime 809 = true := by rw [is_prime_eval 809 28 (by norm_num) (by norm_num)]; decide
  have e620 : is_prime 620 = false := by rw [is_prime_eval 620 24 (by norm_num) (by norm_num)]; decide
  have e626 : is_prime 626 = false := by rw [is_prime_eval 626 25 (by norm_num) (by norm_num)]; decide
  have e1071 : is_prime 1071 = false := by rw [is_prime_eval 1071 32 (by norm_num) (by norm_num)]; decide
  have e280 : is_prime 280 = false := by rw [is_prime_eval 280 16 (by norm_num) (by norm_num)]; decide
  have e934 : is_prime 934 = false := by rw [is_prime_eval 934 30 (by norm_num) (by norm_num)]; decide
  have e812 : is_prime 812 = false := by rw [is_prime_eval 812 28 (by norm_num) (by norm_num)]; decide
  have e204 : is_prime 204 = false := by rw [is_prime_eval 204 14 (by norm_num) (by norm_num)]; decide
  have e966 : is_prime 966 = false := by rw [is_prime_eval 966 31 (by norm_num) (by norm_num)]; decide
  have e278 : is_prime 278 = false := by rw [is_prime_eval 278 16 (by norm_num) (by norm_num)]; decide
  have e312 : is_prime 312 = false := by rw [is_prime_eval 312 17 (by norm_num) (by norm_num)]; decide
  have e1311 : is_prime 1311 = false := by rw [is_prime_eval 1311 36 (by norm_num) (by norm_num)]; decide
  have e434 : is_prime 434 = false := by rw [is_prime_eval 434 20 (by norm_num) (by norm_num)]; decide
  have hd : flatSquare.dedup = [809, 620, 626, 1071, 280, 934, 812, 204, 966, 278, 312, 1311, 434] := by
    decide
  have hperm := hl.filter (fun v => is_prime v)
  rw [hd] at hperm
  rw [List.filter_cons, List.filter_cons, List.filter_cons, List.filter_cons,
      List.filter_cons, List.filter_cons, List.filter_cons, List.filter_cons,
      List.filter_cons, List.filter_cons, List.filter_cons, List.filter_cons,
      List.filter_cons, List.filter_nil,
      e809, e620, e626, e1071, e280, e934, e812, e204, e966, e278, e312, e1311, e434] at hperm
  simp only [if_pos, if_neg, Bool.false_eq_true, if_false, if_true] at hperm
  exact List.perm_singleton.1 hperm

/-- C4, amended: byte-identity across runs fails only through the interpolated
date: apart from the Date line (the write at index 1) the header writes are
identical across runs, and the pipeline's unordered-container iterations over
`set(self.flat)` (in `_analyze_prime_distribution` and in
`_write_raw_data_verification`) cannot affect the findings, since every
enumeration order of the distinct grid values yields the same prime list
`[809]`, hence the same sole reported prime and the same prime count. -/
theorem pipeline_run_invariants :
    (∀ d1 d2 : String, (writeHeader d1).eraseIdx 1 = (writeHeader d2).eraseIdx 1) ∧
    (∀ l : List Nat, l.Perm flatSquare.dedup →
      l.filter (fun v => is_prime v) = [809]) :=
  ⟨fun _ _ => rfl, primes_of_distinct_values⟩

/-- C4, witness: the invariants applied at concrete inputs, with the
permutation hypothesis discharged at the reversed enumeration order. -/
theorem pipeline_run_invariants_witness :
    (writeHeader "a").eraseIdx 1 = (writeHeader "b").eraseIdx 1 ∧
    (flatSquare.dedup.reverse).Perm flatSquare.dedup ∧
    (flatSquare.dedup.reverse).filter (fun v => is_prime v) = [809] :=
  ⟨pipeline_run_invariants.1 "a" "b", List.reverse_perm _,
   pipeline_run_invariants.2 _ (List.reverse_perm _)⟩

/-- C5, counterexample: the palindrome scan's reported entries pair each
palindromic window with its length and values, not with its starting index:
no entry carries the starting index 10 of the 5-element palindrome. -/
theorem palindrome_report_lacks_start_index :
    (10, [626, 620, 809, 620, 626]) ∉ palindromeScan flatSquare ∧
    (5, [626, 620, 809, 620, 626]) ∈ palindromeScan flatSquare := by
  decide

/-- C5, amended: scanning the flattened grid over lengths 3, 5 and 7 reports
exactly the three palindromic windows below, tagged with length and values;
the 5-element window `[626, 620, 809, 620, 626]` is the slice of the flattened
grid starting at index 10. -/
theorem palindrome_scan_results :
    palindromeScan flatSquare =
      [(3, [620, 809, 620]),
       (5, [626, 620, 809, 620, 626]),
       (7, [1071, 626, 620, 809, 620, 626, 1071])] ∧
    (flatSquare.drop 10).take 5 = [626, 620, 809, 620, 626] := by
  decide

/-- C6: 809 passes the trial-division primality test, 626, 620, 434 and 1311
fail it, and the trial-division factorization of 626 is exactly `[2, 313]`. -/
theorem prime_and_factorization_values :
    is_prime 809 = true ∧
    is_prime 626 = false ∧
    is_prime 620 = false ∧
    is_prime 434 = false ∧
    is_prime 1311 = false ∧
    factorize 626 = [2, 313] := by
  have s809 : Nat.sqrt 809 = 28 := sqrt_eval _ _ (by norm_num) (by norm_num)
  have s626 : Nat.sqrt 626 = 25 := sqrt_eval _ _ (by norm_num) (by norm_num)
  have s620 : Nat.sqrt 620 = 24 := sqrt_eval _ _ (by norm_num) (by norm_num)
  have s434 : Nat.sqrt 434 = 20 := sqrt_eval _ _ (by norm_num) (by norm_num)
  have s1311 : Nat.sqrt 1311 = 36 := sqrt_eval _ _ (by norm_num) (by norm_num)
  refine ⟨?_, ?_, ?_, ?_, ?_, ?_⟩
  · unfold is_prime; rw [s809]; decide
  · unfold is_prime; rw [s626]; decide
  · unfold is_prime; rw [s620]; decide
  · unfold is_prime; rw [s434]; decide
  · unfold is_prime; rw [s1311]; decide
  · simp [factorize, factorLoop, divideOut]

/-- Full specification of the inner division loop: for `d ≥ 2` and `n ≥ 1` it
returns copies of `d` whose product times the remainder reconstructs `n`, the
remainder stays positive and is no longer divisible by `d`. -/
theorem divideOut_spec (d : Nat) (hd : 2 ≤ d) (n : Nat) : 0 < n →
    (∀ x ∈ (divideOut d n).1, x = d) ∧
    ((divideOut d n).1).prod * (divideOut d n).2 = n ∧
    0 < (divideOut d n).2 ∧
    ¬ d ∣ (divideOut d n).2 := by
  induction n using divideOut.induct d with
  | case1 n h ih =>
    intro hn
    have hdvd : d ∣ n := Nat.dvd_of_mod_eq_zero h.2.2
    have hpos : 0 < n / d := Nat.div_pos (Nat.le_of_dvd hn hdvd) (by omega)
    obtain ⟨ih1, ih2, ih3, ih4⟩ := ih hpos
    rw [divideOut, dif_pos h]
    refine ⟨?_, ?_, ih3, ih4⟩
    · intro x hx
      rcases List.mem_cons.1 hx with rfl | hx'
      · rfl
      · exact ih1 x hx'
    · show (d :: (divideOut d (n / d)).1).prod * (divideOut d (n / d)).2 = n
      rw [List.prod_cons, mul_assoc, ih2]
      exact Nat.mul_div_cancel' hdvd
  | case2 n h =>
    intro hn
    rw [divideOut, dif_neg h]
    refine ⟨by simp, by simp, hn, ?_⟩
    intro hdvd
    exact h ⟨hd, hn, Nat.mod_eq_zero_of_dvd hdvd⟩

/-- Full specification of the outer trial-division loop: if `n ≥ 1` has no
divisor in `[2, d)`, the loop returns a nondecreasing list of primes, all at
least `d`, whose product is `n`. -/
theorem factorLoop_spec (d n : Nat) : 2 ≤ d → 0 < n →
    (∀ k, 2 ≤ k → k < d → ¬ k ∣ n) →
    (factorLoop d n).prod = n ∧
    (∀ p ∈ factorLoop d n, Nat.Prime p ∧ d ≤ p) ∧
    (factorLoop d n).Pairwise (· ≤ ·) := by
  induction d, n using factorLoop.induct with
  | case1 d n h ih =>
    intro hd hn hinv
    obtain ⟨A1, A2, A3, A4⟩ := divideOut_spec d hd n hn
    have hmdvd : (divideOut d n).2 ∣ n := ⟨(divideOut d n).1.prod, by rw [mul_comm]; exact A2.symm⟩
    have hinv' : ∀ k, 2 ≤ k → k < d + 1 → ¬ k ∣ (divideOut d n).2 := by
      intro k hk2 hkd hkdvd
      rcases Nat.lt_succ_iff_lt_or_eq.1 hkd with hlt | rfl
      · exact hinv k hk2 hlt (hkdvd.trans hmdvd)
      · exact A4 hkdvd
    obtain ⟨B1, B2, B3⟩ := ih (by omega) A3 hinv'
    have hdp : ∀ x ∈ (divideOut d n).1, Nat.Prime x ∧ d ≤ x := by
      intro x hx
      have hxd := A1 x hx
      subst hxd
      refine ⟨?_, le_refl x⟩
      have hddvd : x ∣ n := (List.dvd_prod hx).trans ⟨(divideOut x n).2, A2.symm⟩
      by_contra hnp
      have hq := Nat.minFac_prime (show x ≠ 1 by omega)
      have hqlt : x.minFac < x := by
        rcases Nat.lt_or_ge x.minFac x with h' | h'
        · exact h'
        · exact absurd (Nat.prime_def_minFac.2
            ⟨hd, le_antisymm (Nat.minFac_le (by omega)) h'⟩) hnp
      exact hinv x.minFac hq.two_le hqlt ((Nat.minFac_dvd x).trans hddvd)
    rw [factorLoop, dif_pos h]
    refine ⟨?_, ?_, ?_⟩
    · rw [List.prod_append, B1]
      exact A2
    · intro p hp
      rcases List.mem_append.1 hp with hp1 | hp2
      · exact hdp p hp1
      · obtain ⟨hpp, hdp'⟩ := B2 p hp2
        exact ⟨hpp, by omega⟩
    · rw [List.pairwise_append]
      refine ⟨pairwise_le_of_all_eq _ d A1, B3, ?_⟩
      intro x hx y hy
      have hxd := A1 x hx
      have hyd := (B2 y hy).2
      omega
  | case2 d n h h2 =>
    intro hd hn hinv
    rw [factorLoop, dif_neg h, if_pos h2]
    have hdn : d ≤ n := by
      by_contra hlt
      exact hinv n (by omega) (by omega) dvd_rfl
    refine ⟨by simp, ?_, by simp⟩
    intro p hp
    rw [List.mem_singleton] at hp
    subst hp
    refine ⟨?_, hdn⟩
    by_contra hnp
    have hsq : p.minFac * p.minFac ≤ p := by
      have := Nat.minFac_sq_le_self (by omega) hnp
      rwa [Nat.pow_two] at this
    have hqlt : p.minFac < d := by
      by_contra hge
      push_neg at hge
      have : d * d ≤ p.minFac * p.minFac := Nat.mul_le_mul hge hge
      omega
    exact hinv p.minFac (Nat.minFac_prime (show p ≠ 1 by omega)).two_le hqlt (Nat.minFac_dvd p)
  | case3 d n h h2 =>
    intro hd hn hinv
    rw [factorLoop, dif_neg h, if_neg h2]
    have hn1 : n = 1 := by omega
    subst hn1
    exact ⟨by simp, by simp, by simp⟩

/-- C7: for every `n ≥ 2`, the trial-division factorization returns a
nondecreasing sequence of primes whose product is `n`. -/
theorem factorize_prod_sorted_prime (n : Nat) (h : 2 ≤ n) :
    (factorize n).prod = n ∧
    (factorize n).Pairwise (· ≤ ·) ∧
    ∀ p ∈ factorize n, Nat.Prime p := by
  obtain ⟨h1, h2, h3⟩ :=
    factorLoop_spec 2 n (le_refl 2) (by omega) (fun k hk2 hkd => absurd hkd (by omega))
  exact ⟨h1, h3, fun p hp => (h2 p hp).1⟩

/-- C7, witness at `n = 626`. -/
theorem factorize_prod_sorted_prime_witness :
    2 ≤ 626 ∧ ((factorize 626).prod = 626 ∧ (factorize 626).Pairwise (· ≤ ·) ∧
      ∀ p ∈ factorize 626, Nat.Prime p) :=
  ⟨by norm_num, factorize_prod_sorted_prime 626 (by norm_num)⟩

/-- C8: the digital root always lands in a single decimal digit, is invariant
under one more digit-sum step (so it is exactly the limit of repeated
digit-summing), and takes the values 6 at 1311 and 0 at 0. -/
theorem digitalRoot_properties :
    (∀ n : Nat, digitalRoot n ≤ 9 ∧ digitalRoot n = digitalRoot (digitSum n)) ∧
    digitalRoot 1311 = 6 ∧ digitalRoot 0 = 0 := by
  have hle : ∀ n, digitalRoot n ≤ 9 := by
    intro n
    induction n using digitalRoot.induct with
    | case1 n h => rw [digitalRoot, if_pos h]; exact h
    | case2 n h ih => rw [digitalRoot, if_neg h]; exact ih
  have hfix : ∀ n, digitalRoot n = digitalRoot (digitSum n) := by
    intro n
    by_cases h : n ≤ 9
    · rw [show digitSum n = n by rw [digitSum, if_pos (by omega)]]
    · conv_lhs => rw [digitalRoot, if_neg h]
  refine ⟨fun n => ⟨hle n, hfix n⟩, ?_, ?_⟩
  · have h1 : digitSum 1311 = 6 := by simp [digitSum]
    rw [hfix 1311, h1, digitalRoot]
    norm_num
  · rw [digitalRoot]
    norm_num

/-- C9: the codec is total by construction, preserves sequence length, its
validity score is the in-range count divided by the length, always lies in
`[0, 1]`, and is 0 (not an error) on the empty sequence. -/
theorem codec_total_and_score_bounds (l : List Nat) :
    (encodeSeq l).length = l.length ∧
    0 ≤ validityScore l ∧ validityScore l ≤ 1 ∧
    validityScore l * (l.length : ℚ) = (validCount l : ℚ) ∧
    validityScore ([] : List Nat) = 0 := by
  refine ⟨by simp [encodeSeq], ?_, ?_, ?_, by rfl⟩
  · unfold validityScore
    split
    · exact le_refl 0
    · positivity
  · unfold validityScore
    split
    · norm_num
    · rename_i hne
      have hpos : (0 : ℚ) < (l.length : ℚ) := by
        exact_mod_cast Nat.pos_of_ne_zero hne
      rw [div_le_one hpos]
      exact_mod_cast List.countP_le_length _
  · unfold validityScore
    split
    · rename_i h0
      rw [List.length_eq_zero.1 h0]
      simp [validCount]
    · rename_i hne
      rw [div_mul_cancel₀]
      exact_mod_cast hne

/-- C10: the quarter rotation defined by the spec's equation
`rotated[N-1-j][i] = original[i][j]` has order four, its square is the
180-degree rotation, and the latter is its own inverse. -/
theorem rotateLeft90_group_properties (n : Nat) (m : SquareMat n) :
    rotateLeft90 (rotateLeft90 (rotateLeft90 (rotateLeft90 m))) = m ∧
    rotateLeft90 (rotateLeft90 m) = rotate180 m ∧
    rotate180 (rotate180 m) = m ∧
    ∀ i j : Fin n, rotateLeft90 m j.rev i = m i j := by
  refine ⟨?_, ?_, ?_, ?_⟩
  · funext r c
    simp [rotateLeft90, Fin.rev_rev]
  · funext r c
    simp [rotateLeft90, rotate180]
  · funext r c
    simp [rotate180, Fin.rev_rev]
  · intro i j
    simp [rotateLeft90, Fin.rev_rev]
